import Mathlib

/-!
Verification of the BLS12-381 G1 group-law and point-codec code of this
repository (src/libff/algebra/curves/bls12_381/bls12_381_g1.cpp, declarations
in bls12_381_g1.hpp and libff/algebra/fields/fp.hpp).

The prime field `bls12_381_Fq` is modelled as an arbitrary decidable field `F`
(the spec, section 4.1, makes every field operation used here a total field
operation; the Montgomery representation is an internal detail with no
observable effect on the operations used by the G1 code).  The curve
coefficient `bls12_381_coeff_b` is a parameter `b : F`.  Curve points are
Jacobian-coordinate triples, as in the C++ class.
-/

set_option linter.unusedSectionVars false

/-- Jacobian-coordinate curve point, mirroring the data members
`bls12_381_Fq X, Y, Z` of class `bls12_381_G1`. -/
@[ext]
structure Point (F : Type) where
  X : F
  Y : F
  Z : F
deriving DecidableEq, Repr

namespace Point

variable {F : Type} [Field F] [DecidableEq F]

/-- The representative used for the point at infinity, `G1_zero = (0, 1, 0)`:
`to_affine_coordinates` in the source resets a zero point to exactly this
triple, and the spec (section 3) fixes infinity as the set of representatives
with `Z = 0`. -/
def zeroPoint : Point F := ⟨0, 1, 0⟩

/-- Translation of `bls12_381_G1::is_zero`: `Z.is_zero()`. -/
def is_zero (P : Point F) : Bool := decide (P.Z = 0)

/-- Translation of `bls12_381_G1::operator==` (bls12_381_g1.cpp lines 83-109). -/
def equals (P Q : Point F) : Bool :=
  if P.Z = 0 then decide (Q.Z = 0)
  else if Q.Z = 0 then false
  else
    let Z1_squared := P.Z * P.Z
    let Z2_squared := Q.Z * Q.Z
    let Z1_cubed := P.Z * Z1_squared
    let Z2_cubed := Q.Z * Z2_squared
    if P.X * Z2_squared ≠ Q.X * Z1_squared ∨ P.Y * Z2_cubed ≠ Q.Y * Z1_cubed
    then false
    else true

/-- Translation of `bls12_381_G1::dbl` (bls12_381_g1.cpp lines 276-321,
formula dbl-2009-l; `squared()` is translated as self-multiplication).
The logging calls are instrumentation outside the spec's scope. -/
def dbl (P : Point F) : Point F :=
  if P.Z = 0 then P
  else
    let A := P.X * P.X
    let B := P.Y * P.Y
    let C := B * B
    let D0 := (P.X + B) * (P.X + B) - A - C
    let D := D0 + D0
    let E := A + A + A
    let Fv := E * E
    let X3 := Fv - (D + D)
    let fourC := (C + C) + (C + C)
    let eightC := fourC + fourC
    let Y3 := E * (D - X3) - eightC
    let Y1Z1 := P.Y * P.Z
    let Z3 := Y1Z1 + Y1Z1
    ⟨X3, Y3, Z3⟩

/-- Translation of `bls12_381_G1::operator+` (bls12_381_g1.cpp lines 116-188,
formula add-2007-bl; the `_add_ec_point_count` counter and logging calls are
instrumentation outside the spec's scope). -/
def add (P Q : Point F) : Point F :=
  if P.Z = 0 then Q
  else if Q.Z = 0 then P
  else
    let Z1Z1 := P.Z * P.Z
    let Z2Z2 := Q.Z * Q.Z
    let U1 := P.X * Z2Z2
    let U2 := Q.X * Z1Z1
    let S1 := P.Y * (Q.Z * Z2Z2)
    let S2 := Q.Y * (P.Z * Z1Z1)
    if U1 = U2 ∧ S1 = S2 then P.dbl
    else
      let H := U2 - U1
      let I := (H + H) * (H + H)
      let J := H * I
      let S2_minus_S1 := S2 - S1
      let r := S2_minus_S1 + S2_minus_S1
      let V := U1 * I
      let X3 := r * r - J - (V + V)
      let S1_J := S1 * J
      let Y3 := r * (V - X3) - (S1_J + S1_J)
      let Z3 := ((P.Z + Q.Z) * (P.Z + Q.Z) - Z1Z1 - Z2Z2) * H
      ⟨X3, Y3, Z3⟩

/-- Translation of `bls12_381_G1::mixed_add` (bls12_381_g1.cpp lines 205-274,
formula madd-2007-bl). -/
def mixed_add (P Q : Point F) : Point F :=
  if P.Z = 0 then Q
  else if Q.Z = 0 then P
  else
    let Z1Z1 := P.Z * P.Z
    let U2 := Q.X * Z1Z1
    let S2 := Q.Y * (P.Z * Z1Z1)
    if P.X = U2 ∧ P.Y = S2 then P.dbl
    else
      let H := U2 - P.X
      let HH := H * H
      let I0 := HH + HH
      let I := I0 + I0
      let J := H * I
      let r0 := S2 - P.Y
      let r := r0 + r0
      let V := P.X * I
      let X3 := r * r - J - V - V
      let Y3a := P.Y * J
      let Y3 := r * (V - X3) - Y3a - Y3a
      let Z3 := (P.Z + H) * (P.Z + H) - Z1Z1 - HH
      ⟨X3, Y3, Z3⟩

/-- Translation of the unary `bls12_381_G1::operator-`
(bls12_381_g1.cpp lines 190-193). -/
def neg (P : Point F) : Point F := ⟨P.X, -P.Y, P.Z⟩

/-- Translation of `bls12_381_G1::is_well_formed`
(bls12_381_g1.cpp lines 328-348); `b` is `bls12_381_coeff_b`. -/
def is_well_formed (b : F) (P : Point F) : Bool :=
  if P.Z = 0 then true
  else
    let X2 := P.X * P.X
    let Y2 := P.Y * P.Y
    let Z2 := P.Z * P.Z
    let X3 := P.X * X2
    let Z3 := P.Z * Z2
    let Z6 := Z3 * Z3
    decide (Y2 = X3 + b * Z6)

/-- Translation of `bls12_381_G1::to_affine_coordinates`
(bls12_381_g1.cpp lines 58-72), as a function returning the updated point. -/
def to_affine (P : Point F) : Point F :=
  if P.Z = 0 then ⟨0, 1, 0⟩
  else
    let Z_inv := P.Z⁻¹
    let Z2_inv := Z_inv * Z_inv
    let Z3_inv := Z2_inv * Z_inv
    ⟨P.X * Z2_inv, P.Y * Z3_inv, 1⟩

end Point

section BatchInversion

variable {F : Type} [Field F] [DecidableEq F]

/-- Modelled from the spec: `batch_invert` (declared in the repository but
implemented outside src/).  Spec section 4.2: "accumulate the running product
of Z values, invert once, then walk backward dividing out" (Montgomery's
trick).  `prefixProds acc v` is the list of running products of `v` starting
from `acc` (the product of the elements strictly before each position). -/
def prefixProds (acc : F) : List F → List F
  | [] => []
  | x :: xs => acc :: prefixProds (acc * x) xs

/-- Modelled from the spec: the backward walk of Montgomery's trick.  The
input pairs `(x, pfx)` are the original elements together with their prefix
products, in reverse order; `c` is the inverse of the product of all elements
not yet walked past.  The walk performs multiplications only. -/
def montWalk (c : F) : List (F × F) → List F
  | [] => []
  | (x, pfx) :: rest => (c * pfx) :: montWalk (c * x) rest

/-- Modelled from the spec: `batch_invert` (spec sections 2 and 4.2), the
single-inversion batch inversion used by `batch_to_special_all_non_zeros`.
The one field inversion is the `⁻¹` applied to the accumulated product;
`prefixProds` and `montWalk` consist of multiplications only. -/
def batch_invert (v : List F) : List F :=
  let total := v.foldl (fun a x => a * x) 1
  (montWalk total⁻¹ ((v.zip (prefixProds 1 v)).reverse)).reverse

/-- Instrumented variant of `batch_invert` that also reports how many field
inversions are performed: the count is incremented exactly where `⁻¹` is
applied, and nowhere else in the algorithm. -/
def batchInvertCounted (v : List F) : List F × ℕ :=
  let total := v.foldl (fun a x => a * x) 1
  let tinv := (total⁻¹, 1)
  ((montWalk tinv.1 ((v.zip (prefixProds 1 v)).reverse)).reverse, tinv.2)

end BatchInversion

namespace Point

variable {F : Type} [Field F] [DecidableEq F]

/-- Translation of `bls12_381_G1::batch_to_special_all_non_zeros`
(bls12_381_g1.cpp lines 467-488), with the external `batch_invert` supplied
by the spec-modelled definition above. -/
def batch_to_special_all_non_zeros (vec : List (Point F)) : List (Point F) :=
  let Z_vec := batch_invert (vec.map Point.Z)
  (vec.zip Z_vec).map (fun pz =>
    let Z2 := pz.2 * pz.2
    let Z3 := pz.2 * Z2
    ⟨pz.1.X * Z2, pz.1.Y * Z3, 1⟩)

/-- Modelled from the spec: scalar multiplication (`scalar_mul`, declared in
curve_utils.hpp but implemented outside src/).  Spec section 4.2:
"double-and-add ... consuming a big-integer scalar most-significant-bit
first", built from `add`/`double`. -/
def scalar_mul (k : ℕ) (P : Point F) : Point F :=
  (Nat.bits k).reverse.foldl
    (fun acc bit => if bit then (acc.dbl).add P else acc.dbl) zeroPoint

end Point

section Sqrt

variable {F : Type} [Field F] [DecidableEq F]

/-- Failure outcome of the square-root routine; spec section 7:
`sqrt` must "fail with a not-a-residue condition". -/
inductive SqrtErr where
  | notAResidue
deriving DecidableEq, Repr

/-- Modelled from the spec: the inner scan of Tonelli-Shanks, counting the
squarings needed to bring `c` to 1, capped by the available fuel. -/
def tsOrder : ℕ → F → ℕ
  | 0, _ => 0
  | fuel + 1, c => if c = 1 then 0 else tsOrder fuel (c * c) + 1

/-- Modelled from the spec: the outer Tonelli-Shanks loop, with explicit fuel
bounding the number of iterations (spec section 4.1: "Must be bounded to at
most O(s) iterations").  Returns the candidate root together with the number
of iterations actually performed.  State: `x` is the current root candidate,
`bb` the current cofactor, `z` the current order-2^v root of unity, `v` the
current exponent. -/
def tsLoop : ℕ → F → F → F → ℕ → F × ℕ
  | 0, x, _, _, _ => (x, 0)
  | fuel + 1, x, bb, z, v =>
    if bb = 1 then (x, 0)
    else
      let m := tsOrder v bb
      let w := z ^ (2 ^ (v - m - 1))
      let zn := w * w
      let res := tsLoop fuel (x * w) (bb * zn) zn m
      (res.1, res.2 + 1)

/-- Modelled from the spec: `Fp_model::sqrt` (declared at fp.hpp lines
128-129, implemented outside src/).  Spec section 4.1: "the Tonelli-Shanks
algorithm generalized via the precomputed (s, t) decomposition of p-1 and the
precomputed nonresidue raised to t.  Must be bounded to at most O(s)
iterations and must fail with a not-a-residue condition if no root is found,
rather than looping indefinitely."  `s` and `t` are the precomputed values
with p - 1 = 2^s * t, t odd, and `g` is `nqr_to_t = nqr^t`. -/
def tonelliShanks (s t : ℕ) (g : F) (a : F) : Except SqrtErr F :=
  let w := a ^ ((t - 1) / 2)
  let x := a * w
  let bb := x * w
  let res := tsLoop s x bb g s
  if res.1 * res.1 = a then .ok res.1 else .error .notAResidue

/-- Number of Tonelli-Shanks iterations performed by `tonelliShanks s t g a`. -/
def sqrtIterations (s t : ℕ) (g : F) (a : F) : ℕ :=
  let w := a ^ ((t - 1) / 2)
  let x := a * w
  let bb := x * w
  (tsLoop s x bb g s).2

end Sqrt

section Codec

/-- One token of the wire stream (spec section 6).  The byte stream written
by the point codec is a sequence of separator-delimited fields: a zero-flag
character, field-element encodings, and a single parity-bit character.  The
separator `OUTPUT_SEPARATOR` delimits tokens and is implicit here. -/
inductive Token (F : Type) where
  | flagTok (z : Bool)
  | fieldTok (x : F)
  | bitTok (bit : Bool)
deriving DecidableEq, Repr

/-- Failure outcome of deserialization; spec section 7: "malformed-input". -/
inductive ReadErr where
  | malformed
deriving DecidableEq, Repr

variable {F : Type} [Field F] [DecidableEq F]

/-- Translation of `bls12_381_G1::write_uncompressed` (bls12_381_g1.cpp lines
364-378): the enabled code emits the three raw coordinate fields
`X`, `Y`, `Z` with no zero-flag (the `#if 0` block holding the
flag-and-affine layout is disabled). -/
def write_uncompressed (P : Point F) : List (Token F) :=
  [.fieldTok P.X, .fieldTok P.Y, .fieldTok P.Z]

/-- Translation of `bls12_381_G1::write_compressed` (bls12_381_g1.cpp lines
380-389): normalize to affine, emit the zero-flag, the x-coordinate, and the
least-significant bit of y.  `lsb` models `as_bigint().data[0] & 1`, the low
bit of the standard (non-Montgomery) representative; it is a parameter
because the big-integer layer is outside src/. -/
def write_compressed (lsb : F → Bool) (P : Point F) : List (Token F) :=
  let copy := P.to_affine
  [.flagTok (copy.Z = 0), .fieldTok copy.X, .bitTok (lsb copy.Y)]

/-- Translation of `bls12_381_G1::read_uncompressed` (bls12_381_g1.cpp lines
391-407): it consumes a zero-flag character and TWO field elements
(`in >> is_zero >> tX >> tY`), then builds `(tX, tY, 1)` or the zero point. -/
def read_uncompressed : List (Token F) → Except ReadErr (Point F × List (Token F))
  | .flagTok z :: .fieldTok tX :: .fieldTok tY :: rest =>
    if z then .ok (Point.zeroPoint, rest) else .ok (⟨tX, tY, 1⟩, rest)
  | _ => .error .malformed

/-- Translation of `bls12_381_G1::read_compressed` (bls12_381_g1.cpp lines
409-444): read the flag, x and parity bit; if non-zero, recompute
`y = sqrt(x^3 + b)` through the field square root `sqrtF` (spec: fails with
malformed-input if `x^3 + b` is not a residue) and negate it if its parity
disagrees with the stored bit; construct the point with `Z = 1`. -/
def read_compressed (b : F) (sqrtF : F → Except SqrtErr F) (lsb : F → Bool) :
    List (Token F) → Except ReadErr (Point F × List (Token F))
  | .flagTok z :: .fieldTok tX :: .bitTok Y_lsb :: rest =>
    if z then .ok (Point.zeroPoint, rest)
    else
      let tX2 := tX * tX
      let tY2 := tX2 * tX + b
      match sqrtF tY2 with
      | .error _ => .error .malformed
      | .ok tY0 =>
        let tY := if lsb tY0 ≠ Y_lsb then -tY0 else tY0
        .ok (⟨tX, tY, 1⟩, rest)
  | _ => .error .malformed

end Codec

section ZModInstances

/-- Modelled from the spec: the parity bit `as_bigint().data[0] & 1` of a
prime-field element, its standard representative being the canonical value in
`[0, p)` (spec section 3). -/
def zmodLsb (p : ℕ) (y : ZMod p) : Bool := decide (y.val % 2 = 1)

/-- Modelled from the spec: a reference square root on `ZMod p` satisfying the
PrimeField `sqrt` contract of spec section 4.1 — it returns a root whenever
the operand is a quadratic residue and fails with not-a-residue otherwise.
Used to instantiate the `sqrtF` parameter of `read_compressed` in witnesses. -/
def sqrtSearch (p : ℕ) (a : ZMod p) : Except SqrtErr (ZMod p) :=
  match (List.range p).find? (fun y => decide ((y : ZMod p) * y = a)) with
  | some y => .ok (y : ZMod p)
  | none => .error .notAResidue

instance : Fact (Nat.Prime 13) := ⟨by norm_num⟩

deriving instance DecidableEq for Except

end ZModInstances

section Theorems

variable {F : Type} [Field F] [DecidableEq F]

/-- C9: for every curve point P, negate (unary operator-) returns a point
whose Y coordinate is the field negation of P's Y, while the X and Z
coordinates are exactly those of P, unchanged. -/
theorem neg_flips_Y_and_frames_X_Z (P : Point F) :
    (P.neg).X = P.X ∧ (P.neg).Y = -P.Y ∧ (P.neg).Z = P.Z :=
  ⟨rfl, rfl, rfl⟩

/-- C10: is_well_formed returns true for the point at infinity (any
representative with Z = 0) unconditionally, without evaluating the curve
equation — even for representatives whose X and Y coordinates would not
satisfy Y^2 = X^3. -/
theorem is_well_formed_true_on_any_infinity_rep (b X Y : F) :
    Point.is_well_formed b ⟨X, Y, 0⟩ = true := by
  simp [Point.is_well_formed]

/-- C3 (code bug): the uncompressed writer emits the three raw coordinate
fields with no zero-flag, but the uncompressed reader consumes a zero-flag
and only two field elements, so the writer's output is never readable by the
reader: decoding fails on every point's encoding. -/
theorem uncompressed_round_trip_always_fails (P : Point F) :
    read_uncompressed (write_uncompressed P) = Except.error ReadErr.malformed :=
  rfl

/-- C1: add (operator+) first short-circuits on Infinity by returning the
other operand unchanged, and otherwise, whenever U1 = U2 and S1 = S2 for
U1 = X1*Z2^2, U2 = X2*Z1^2, S1 = Y1*Z2*Z2^2, S2 = Y2*Z1*Z1^2, returns
double(P) instead of the general Jacobian addition formula. -/
theorem add_zero_short_circuit_and_dbl_dispatch (P Q : Point F) :
    (P.Z = 0 → P.add Q = Q) ∧
    (P.Z ≠ 0 → Q.Z = 0 → P.add Q = P) ∧
    (P.Z ≠ 0 → Q.Z ≠ 0 →
      P.X * Q.Z ^ 2 = Q.X * P.Z ^ 2 →
      P.Y * (Q.Z * Q.Z ^ 2) = Q.Y * (P.Z * P.Z ^ 2) →
      P.add Q = P.dbl) := by
  refine ⟨fun h => by simp [Point.add, h], fun hP hQ => by simp [Point.add, hP, hQ], ?_⟩
  intro hP hQ h1 h2
  have e1 : P.X * (Q.Z * Q.Z) = Q.X * (P.Z * P.Z) := by ring_nf; ring_nf at h1; exact h1
  have e2 : P.Y * (Q.Z * (Q.Z * Q.Z)) = Q.Y * (P.Z * (P.Z * P.Z)) := by
    ring_nf; ring_nf at h2; exact h2
  simp [Point.add, hP, hQ, e1, e2]

/-- Reflexivity of the point comparison `equals`. -/
theorem equals_refl (P : Point F) : P.equals P = true := by
  by_cases h : P.Z = 0 <;> simp [Point.equals, h]

/-- C7: equality (operator==) holds between Infinity and another point
exactly when the other is Infinity; for two finite points it holds exactly
when X1*Z2^2 = X2*Z1^2 and Y1*Z2^3 = Y2*Z1^3; consequently Jacobian
representatives related by (l^2*X, l^3*Y, l*Z) scaling with l nonzero
compare equal. -/
theorem equals_cross_mul_spec (P Q : Point F) :
    (P.Z = 0 → (P.equals Q = true ↔ Q.Z = 0)) ∧
    (Q.Z = 0 → (P.equals Q = true ↔ P.Z = 0)) ∧
    (P.Z ≠ 0 → Q.Z ≠ 0 →
      (P.equals Q = true ↔
        (P.X * Q.Z ^ 2 = Q.X * P.Z ^ 2 ∧ P.Y * Q.Z ^ 3 = Q.Y * P.Z ^ 3))) ∧
    (∀ l : F, l ≠ 0 →
      P.equals ⟨l ^ 2 * P.X, l ^ 3 * P.Y, l * P.Z⟩ = true) := by
  refine ⟨fun h => by simp [Point.equals, h], ?_, ?_, ?_⟩
  · intro h
    by_cases hP : P.Z = 0 <;> simp [Point.equals, hP, h]
  · intro hP hQ
    simp only [Point.equals, if_neg hP, if_neg hQ]
    constructor
    · intro h
      by_cases h1 : P.X * (Q.Z * Q.Z) = Q.X * (P.Z * P.Z) <;>
        by_cases h2 : P.Y * (Q.Z * (Q.Z * Q.Z)) = Q.Y * (P.Z * (P.Z * P.Z)) <;>
        simp [h1, h2] at h <;>
        exact ⟨by linear_combination h1, by linear_combination h2⟩
    · rintro ⟨h1, h2⟩
      have e1 : P.X * (Q.Z * Q.Z) = Q.X * (P.Z * P.Z) := by linear_combination h1
      have e2 : P.Y * (Q.Z * (Q.Z * Q.Z)) = Q.Y * (P.Z * (P.Z * P.Z)) := by
        linear_combination h2
      simp [e1, e2]
  · intro l hl
    by_cases hP : P.Z = 0
    · simp [Point.equals, hP, mul_eq_zero, hl]
    · have hlZ : l * P.Z ≠ 0 := mul_ne_zero hl hP
      have e1 : P.X * (l * P.Z * (l * P.Z)) = l ^ 2 * P.X * (P.Z * P.Z) := by ring
      have e2 : P.Y * (l * P.Z * (l * P.Z * (l * P.Z))) =
          l ^ 3 * P.Y * (P.Z * (P.Z * P.Z)) := by ring
      simp [Point.equals, hP, hlZ, e1, e2]

/-- When the right operand is affine-normalized (Z = 1 or Infinity), the
mixed-addition formula returns exactly the same coordinate triple as the
general addition. -/
theorem mixed_add_eq_add_of_special (P Q : Point F) (h : Q.Z = 1 ∨ Q.Z = 0) :
    P.mixed_add Q = P.add Q := by
  rcases h with h1 | h0
  · by_cases hP : P.Z = 0
    · simp [Point.add, Point.mixed_add, hP]
    · obtain ⟨X2, Y2, Z2⟩ := Q
      simp only at h1
      subst h1
      have hQ : (1 : F) ≠ 0 := one_ne_zero
      simp only [Point.add, Point.mixed_add, if_neg hP, if_neg hQ, mul_one, one_mul]
      by_cases hc : P.X = X2 * (P.Z * P.Z) ∧ P.Y = Y2 * (P.Z * (P.Z * P.Z))
      · rw [if_pos hc, if_pos hc]
      · rw [if_neg hc, if_neg hc]
        refine Point.ext ?_ ?_ ?_ <;> ring
  · by_cases hP : P.Z = 0
    · simp [Point.add, Point.mixed_add, hP]
    · simp [Point.add, Point.mixed_add, hP, h0]

/-- C6: for every curve point P and every affine-normalized curve point Q
(Q is Infinity or has Z = 1), mixed_add(P, Q) returns a point equal, as a
logical point, to add(P, Q), including the doubling-case dispatch and the
Infinity cases. -/
theorem mixed_add_equals_add (P Q : Point F) (h : Q.Z = 1 ∨ Q.Z = 0) :
    Point.equals (P.mixed_add Q) (P.add Q) = true := by
  rw [mixed_add_eq_add_of_special P Q h]
  exact equals_refl _

/-- For a finite representative, `is_well_formed` decides exactly the
homogenized curve equation. -/
theorem is_well_formed_iff_eq (b : F) (P : Point F) (h : P.Z ≠ 0) :
    P.is_well_formed b = true ↔ P.Y ^ 2 = P.X ^ 3 + b * P.Z ^ 6 := by
  simp only [Point.is_well_formed, if_neg h, decide_eq_true_eq]
  constructor <;> intro hh <;> linear_combination hh

/-- Any representative satisfying the homogenized curve equation passes
`is_well_formed`. -/
theorem wf_of_eq (b : F) (P : Point F) (h : P.Y ^ 2 = P.X ^ 3 + b * P.Z ^ 6) :
    P.is_well_formed b = true := by
  by_cases hz : P.Z = 0
  · simp [Point.is_well_formed, hz]
  · exact (is_well_formed_iff_eq b P hz).2 h

/-- Doubling preserves `is_well_formed`. -/
theorem dbl_wf (b : F) (P : Point F) (h : P.is_well_formed b = true) :
    (P.dbl).is_well_formed b = true := by
  by_cases hz : P.Z = 0
  · simp only [Point.dbl, if_pos hz]
    exact h
  · have hc : P.Y ^ 2 = P.X ^ 3 + b * P.Z ^ 6 := (is_well_formed_iff_eq b P hz).1 h
    apply wf_of_eq
    simp only [Point.dbl, if_neg hz]
    linear_combination (64 * P.Y ^ 6) * hc

/-- Addition preserves `is_well_formed`. -/
theorem add_wf (b : F) (P Q : Point F) (hP : P.is_well_formed b = true)
    (hQ : Q.is_well_formed b = true) : (P.add Q).is_well_formed b = true := by
  by_cases hz1 : P.Z = 0
  · simp only [Point.add, if_pos hz1]
    exact hQ
  · by_cases hz2 : Q.Z = 0
    · simp only [Point.add, if_neg hz1, if_pos hz2]
      exact hP
    · have h1 : P.Y ^ 2 = P.X ^ 3 + b * P.Z ^ 6 := (is_well_formed_iff_eq b P hz1).1 hP
      have h2 : Q.Y ^ 2 = Q.X ^ 3 + b * Q.Z ^ 6 := (is_well_formed_iff_eq b Q hz2).1 hQ
      simp only [Point.add, if_neg hz1, if_neg hz2]
      split_ifs with hcond
      · exact dbl_wf b P hP
      · apply wf_of_eq
        try dsimp only
        linear_combination
          ((64 * (Q.X * P.Z ^ 2 - P.X * Q.Z ^ 2) ^ 6 -
              64 * (Q.X * P.Z ^ 2 - P.X * Q.Z ^ 2) ^ 3 *
                ((Q.Y * P.Z ^ 3 - P.Y * Q.Z ^ 3) ^ 2 -
                  (Q.X * P.Z ^ 2 - P.X * Q.Z ^ 2) ^ 3 -
                  3 * (P.X * Q.Z ^ 2) * (Q.X * P.Z ^ 2 - P.X * Q.Z ^ 2) ^ 2)) *
            Q.Z ^ 6) * h1 +
          ((64 * (Q.X * P.Z ^ 2 - P.X * Q.Z ^ 2) ^ 3 *
              ((Q.Y * P.Z ^ 3 - P.Y * Q.Z ^ 3) ^ 2 -
                (Q.X * P.Z ^ 2 - P.X * Q.Z ^ 2) ^ 3 -
                3 * (P.X * Q.Z ^ 2) * (Q.X * P.Z ^ 2 - P.X * Q.Z ^ 2) ^ 2)) *
            P.Z ^ 6) * h2

/-- Scalar multiplication (double-and-add) preserves `is_well_formed`. -/
theorem scalar_mul_wf (b : F) (k : ℕ) (P : Point F)
    (hP : P.is_well_formed b = true) :
    (Point.scalar_mul k P).is_well_formed b = true := by
  have hstep : ∀ (l : List Bool) (acc : Point F), acc.is_well_formed b = true →
      (l.foldl (fun acc bit => if bit then (acc.dbl).add P else acc.dbl) acc).is_well_formed b
        = true := by
    intro l
    induction l with
    | nil => intro acc h; exact h
    | cons bit rest ih =>
      intro acc h
      rcases bit with _ | _
      · exact ih _ (dbl_wf b acc h)
      · exact ih _ (add_wf b _ _ (dbl_wf b acc h) hP)
  exact hstep _ _ (by simp [Point.is_well_formed, Point.zeroPoint])

/-- The points reachable from a generator G through the group operations
add, double and scalar multiplication. -/
inductive ReachableFrom (G : Point F) : Point F → Prop where
  | gen : ReachableFrom G G
  | add (P Q : Point F) : ReachableFrom G P → ReachableFrom G Q →
      ReachableFrom G (P.add Q)
  | dbl (P : Point F) : ReachableFrom G P → ReachableFrom G P.dbl
  | smul (k : ℕ) (P : Point F) : ReachableFrom G P →
      ReachableFrom G (Point.scalar_mul k P)

/-- C8 (amended): is_well_formed never fails (it is a total boolean
function); it returns true for every representative with Z = 0 and, for
finite representatives, exactly when Y^2 = X^3 + b*Z^6; and it is an
invariant of the group operations: every point reachable from a well-formed
generator via add, double, or scalar multiplication is well-formed. -/
theorem is_well_formed_spec_and_invariant (b : F) :
    (∀ P : Point F, P.Z = 0 → P.is_well_formed b = true) ∧
    (∀ P : Point F, P.Z ≠ 0 →
      (P.is_well_formed b = true ↔ P.Y ^ 2 = P.X ^ 3 + b * P.Z ^ 6)) ∧
    (∀ G P : Point F, G.is_well_formed b = true → ReachableFrom G P →
      P.is_well_formed b = true) := by
  refine ⟨fun P h => by simp [Point.is_well_formed, h],
    fun P h => is_well_formed_iff_eq b P h, fun G P hG hr => ?_⟩
  induction hr with
  | gen => exact hG
  | add P Q _ _ ihP ihQ => exact add_wf b P Q ihP ihQ
  | dbl P _ ih => exact dbl_wf b P ih
  | smul k P _ ih => exact scalar_mul_wf b k P ih

/-- C8 (counterexample to the claim as stated): over F_13 with b = 4, the
infinity representative (2, 1, 0) passes is_well_formed although it does not
satisfy Y^2 = X^3 + b*Z^6. -/
theorem is_well_formed_not_iff_on_infinity :
    Point.is_well_formed (4 : ZMod 13) ⟨2, 1, 0⟩ = true ∧
    ¬ ((Point.mk (2 : ZMod 13) 1 0).Y ^ 2 =
        (Point.mk (2 : ZMod 13) 1 0).X ^ 3 +
          4 * (Point.mk (2 : ZMod 13) 1 0).Z ^ 6) := by
  constructor <;> decide

end Theorems

section Witnesses

/-- Witness for C1 over F_13: P = (0,2,1) lies on y^2 = x^3 + 4 and
add dispatches as claimed on the zero and doubling cases. -/
theorem add_zero_short_circuit_witness :
    Point.add (⟨0, 1, 0⟩ : Point (ZMod 13)) ⟨0, 2, 1⟩ = ⟨0, 2, 1⟩ ∧
    Point.add (⟨0, 2, 1⟩ : Point (ZMod 13)) ⟨0, 1, 0⟩ = ⟨0, 2, 1⟩ ∧
    Point.add (⟨0, 2, 1⟩ : Point (ZMod 13)) ⟨0, 2, 1⟩ =
      Point.dbl ⟨0, 2, 1⟩ := by
  refine ⟨(add_zero_short_circuit_and_dbl_dispatch _ _).1 (by decide),
    (add_zero_short_circuit_and_dbl_dispatch _ _).2.1 (by decide) (by decide),
    (add_zero_short_circuit_and_dbl_dispatch _ _).2.2
      (by decide) (by decide) (by decide) (by decide)⟩

/-- Witness for C7 over F_13: concrete instances of each clause of the
equality specification, including a scaled representative. -/
theorem equals_cross_mul_witness :
    (Point.equals (⟨5, 7, 0⟩ : Point (ZMod 13)) ⟨1, 1, 0⟩ = true ↔
      (Point.mk (1 : ZMod 13) 1 0).Z = 0) ∧
    (Point.equals (⟨0, 2, 1⟩ : Point (ZMod 13)) ⟨5, 7, 0⟩ = true ↔
      (Point.mk (0 : ZMod 13) 2 1).Z = 0) ∧
    (Point.equals (⟨0, 2, 1⟩ : Point (ZMod 13)) ⟨0, 3, 2⟩ = true ↔
      ((0 : ZMod 13) * 2 ^ 2 = 0 * 1 ^ 2 ∧ (2 : ZMod 13) * 2 ^ 3 = 3 * 1 ^ 3)) ∧
    Point.equals (⟨0, 2, 1⟩ : Point (ZMod 13))
      ⟨2 ^ 2 * 0, 2 ^ 3 * 2, 2 * 1⟩ = true := by
  exact ⟨(equals_cross_mul_spec ⟨5, 7, 0⟩ ⟨1, 1, 0⟩).1 (by decide),
    (equals_cross_mul_spec ⟨0, 2, 1⟩ ⟨5, 7, 0⟩).2.1 (by decide),
    (equals_cross_mul_spec ⟨0, 2, 1⟩ ⟨0, 3, 2⟩).2.2.1 (by decide) (by decide),
    (equals_cross_mul_spec ⟨0, 2, 1⟩ ⟨0, 2, 1⟩).2.2.2 2 (by decide)⟩

/-- Witness for C6 over F_13: mixed addition agrees with general addition on
a concrete normalized right operand (the doubling case P = Q). -/
theorem mixed_add_equals_add_witness :
    Point.equals
      (Point.mixed_add (⟨0, 2, 1⟩ : Point (ZMod 13)) ⟨0, 2, 1⟩)
      (Point.add (⟨0, 2, 1⟩ : Point (ZMod 13)) ⟨0, 2, 1⟩) = true :=
  mixed_add_equals_add _ _ (Or.inl rfl)

/-- Witness for C8 over F_13 with b = 4: the generator (0,2,1) is on the
curve, doubling stays well-formed, and the finite-point equivalence holds at
a concrete representative. -/
theorem is_well_formed_invariant_witness :
    Point.is_well_formed (4 : ZMod 13) ⟨2, 1, 0⟩ = true ∧
    (Point.is_well_formed (4 : ZMod 13) ⟨0, 2, 1⟩ = true ↔
      (2 : ZMod 13) ^ 2 = 0 ^ 3 + 4 * 1 ^ 6) ∧
    Point.is_well_formed (4 : ZMod 13)
      (Point.dbl (⟨0, 2, 1⟩ : Point (ZMod 13))) = true := by
  obtain ⟨h0, hiff, hinv⟩ := is_well_formed_spec_and_invariant (4 : ZMod 13)
  refine ⟨h0 ⟨2, 1, 0⟩ (by decide), ?_, ?_⟩
  · have := hiff ⟨0, 2, 1⟩ (by decide)
    simpa using this
  · exact hinv ⟨0, 2, 1⟩ (Point.dbl ⟨0, 2, 1⟩) (by decide)
      (ReachableFrom.dbl _ ReachableFrom.gen)

end Witnesses

section BatchProofs

variable {F : Type} [Field F] [DecidableEq F]

/-- A left fold of multiplications over nonzero elements, starting from a
nonzero accumulator, stays nonzero. -/
theorem foldl_mul_ne_zero (v : List F) :
    ∀ a : F, a ≠ 0 → (∀ x ∈ v, x ≠ 0) → v.foldl (fun u x => u * x) a ≠ 0 := by
  induction v with
  | nil => intro a ha _; exact ha
  | cons x xs ih =>
    intro a ha h
    exact ih (a * x) (mul_ne_zero ha (h x (List.mem_cons_self x xs)))
      (fun y hy => h y (List.mem_cons_of_mem x hy))

/-- The running-product list has the same length as its input. -/
theorem prefixProds_length (v : List F) :
    ∀ a : F, (prefixProds a v).length = v.length := by
  induction v with
  | nil => intro a; rfl
  | cons x xs ih => intro a; simp [prefixProds, ih]

/-- Appending one element to the input appends the total running product. -/
theorem prefixProds_append (v : List F) :
    ∀ (a x : F), prefixProds a (v ++ [x]) =
      prefixProds a v ++ [v.foldl (fun u w => u * w) a] := by
  induction v with
  | nil => intro a x; rfl
  | cons y ys ih =>
    intro a x
    simp only [List.cons_append, prefixProds, List.foldl_cons, List.append_eq]
    rw [ih]

/-- Correctness of the spec-modelled Montgomery batch inversion: on a list of
nonzero elements it returns the elementwise inverses. -/
theorem batch_invert_correct (v : List F) (h : ∀ x ∈ v, x ≠ 0) :
    batch_invert v = v.map (fun x => x⁻¹) := by
  induction v using List.reverseRecOn with
  | nil => rfl
  | append_singleton ys x ih =>
    have hx : x ≠ 0 := h x (by simp)
    have hys : ∀ y ∈ ys, y ≠ 0 := fun y hy => h y (by simp [hy])
    have hP0 : ys.foldl (fun u w => u * w) 1 ≠ 0 :=
      foldl_mul_ne_zero ys 1 one_ne_zero hys
    have hlen : ys.length = (prefixProds 1 ys).length := (prefixProds_length ys 1).symm
    have e1 : (ys.foldl (fun u w => u * w) 1 * x)⁻¹ * ys.foldl (fun u w => u * w) 1
        = x⁻¹ := by field_simp
    have e2 : (ys.foldl (fun u w => u * w) 1 * x)⁻¹ * x
        = (ys.foldl (fun u w => u * w) 1)⁻¹ := by field_simp; ring
    have ihe : (montWalk (ys.foldl (fun u w => u * w) 1)⁻¹
        ((ys.zip (prefixProds 1 ys)).reverse)).reverse
        = ys.map (fun y => y⁻¹) := ih hys
    simp only [batch_invert, List.foldl_append, List.foldl_cons, List.foldl_nil,
      prefixProds_append, List.zip_append hlen, List.reverse_append,
      List.zip_cons_cons, List.zip_nil_right, List.reverse_cons, List.reverse_nil,
      List.nil_append, List.singleton_append, montWalk, e1, e2, List.map_append]
    rw [ihe]
    simp

/-- Pointwise form of the batch normalization loop on a list whose paired
inverses are already computed. -/
theorem batch_loop_pointwise (vec : List (Point F)) (h : ∀ P ∈ vec, P.Z ≠ 0) :
    (vec.zip (vec.map fun P => P.Z⁻¹)).map (fun pz =>
      let Z2 := pz.2 * pz.2
      let Z3 := pz.2 * Z2
      (⟨pz.1.X * Z2, pz.1.Y * Z3, 1⟩ : Point F)) = vec.map Point.to_affine := by
  induction vec with
  | nil => rfl
  | cons P vs ih =>
    have hP : P.Z ≠ 0 := h P (List.mem_cons_self P vs)
    simp only [List.map_cons, List.zip_cons_cons]
    rw [ih (fun Q hQ => h Q (List.mem_cons_of_mem P hQ))]
    simp only [Point.to_affine, if_neg hP]
    refine congrArg (· :: _) ?_
    refine Point.ext rfl ?_ rfl
    show P.Y * (P.Z⁻¹ * (P.Z⁻¹ * P.Z⁻¹)) = P.Y * (P.Z⁻¹ * P.Z⁻¹ * P.Z⁻¹)
    ring

end BatchProofs

section BatchTheorems

variable {F : Type} [Field F] [DecidableEq F]

/-- C5: for every finite sequence of points none of which is Infinity, the
batch normalization produces, element by element, exactly the same
coordinates as calling to_affine_coordinates independently on each point,
while performing only one field inversion for the whole batch (the counted
instrumentation of batch_invert reports exactly one inversion). -/
theorem batch_to_special_matches_individual (vec : List (Point F))
    (h : ∀ P ∈ vec, P.Z ≠ 0) :
    Point.batch_to_special_all_non_zeros vec = vec.map Point.to_affine ∧
    batchInvertCounted (vec.map Point.Z) = (batch_invert (vec.map Point.Z), 1) := by
  refine ⟨?_, rfl⟩
  have hz : ∀ z ∈ vec.map Point.Z, z ≠ 0 := by
    intro z hzmem
    obtain ⟨P, hP, rfl⟩ := List.mem_map.1 hzmem
    exact h P hP
  have hb : batch_invert (vec.map Point.Z) = vec.map (fun P => P.Z⁻¹) := by
    rw [batch_invert_correct _ hz, List.map_map]
    rfl
  simp only [Point.batch_to_special_all_non_zeros, hb]
  exact batch_loop_pointwise vec h

/-- Witness for C5 over F_13: a concrete two-point batch. -/
theorem batch_to_special_witness :
    Point.batch_to_special_all_non_zeros
        [(⟨1, 2, 3⟩ : Point (ZMod 13)), ⟨4, 5, 6⟩] =
      ([(⟨1, 2, 3⟩ : Point (ZMod 13)), ⟨4, 5, 6⟩]).map Point.to_affine ∧
    batchInvertCounted (([(⟨1, 2, 3⟩ : Point (ZMod 13)), ⟨4, 5, 6⟩]).map Point.Z) =
      (batch_invert (([(⟨1, 2, 3⟩ : Point (ZMod 13)), ⟨4, 5, 6⟩]).map Point.Z), 1) :=
  batch_to_special_matches_individual _ (by decide)

end BatchTheorems

section SqrtTheorems

variable {F : Type} [Field F] [DecidableEq F]

/-- The Tonelli-Shanks loop never performs more iterations than its fuel. -/
theorem tsLoop_count_le (fuel : ℕ) :
    ∀ (x bb z : F) (v : ℕ), (tsLoop fuel x bb z v).2 ≤ fuel := by
  induction fuel with
  | zero => intro x bb z v; exact Nat.le_refl 0
  | succ n ih =>
    intro x bb z v
    by_cases hb : bb = 1
    · simp only [tsLoop, if_pos hb]
      exact Nat.zero_le _
    · simp only [tsLoop, if_neg hb]
      exact Nat.succ_le_succ (ih _ _ _ _)

/-- C4: sqrt performs at most s Tonelli-Shanks iterations (s the 2-adic
valuation of p-1); on a non-residue it terminates and fails with the
not-a-residue condition instead of looping; consequently compressed point
decoding fails with malformed-input when the decoded x gives a non-residue
x^3 + b. -/
theorem sqrt_bounded_and_fails_on_nonresidue (s t : ℕ) (g a : F) (lsb : F → Bool) :
    sqrtIterations s t g a ≤ s ∧
    ((¬ ∃ y : F, y * y = a) → tonelliShanks s t g a = .error .notAResidue) ∧
    (∀ (b x : F) (bit : Bool) (rest : List (Token F)),
      (¬ ∃ y : F, y * y = x * x * x + b) →
      read_compressed b (tonelliShanks s t g) lsb
          (.flagTok false :: .fieldTok x :: .bitTok bit :: rest) =
        .error .malformed) := by
  have hfail : ∀ c : F, (¬ ∃ y : F, y * y = c) →
      tonelliShanks s t g c = .error .notAResidue := by
    intro c hc
    unfold tonelliShanks
    dsimp only
    split_ifs with hr
    · exact absurd ⟨_, hr⟩ hc
    · rfl
  refine ⟨tsLoop_count_le s _ _ _ _, hfail a, ?_⟩
  intro b x bit rest hnr
  simp only [read_compressed, Bool.false_eq_true, if_neg (Bool.false_ne_true)]
  rw [hfail (x * x * x + b) hnr]
  simp

/-- Witness for C4 over F_13 (s = 2, t = 3, nqr_to_t = 2^3 = 8): 2 is a
non-residue mod 13, so sqrt fails and the compressed decoder rejects a
stream whose x gives x^3 + b = 2. -/
theorem sqrt_fails_on_nonresidue_witness :
    sqrtIterations 2 3 (8 : ZMod 13) 2 ≤ 2 ∧
    tonelliShanks 2 3 (8 : ZMod 13) 2 = .error .notAResidue ∧
    read_compressed (2 : ZMod 13) (tonelliShanks 2 3 8) (zmodLsb 13)
        [.flagTok false, .fieldTok 0, .bitTok false] =
      .error .malformed := by
  obtain ⟨h1, h2, h3⟩ :=
    sqrt_bounded_and_fails_on_nonresidue 2 3 (8 : ZMod 13) 2 (zmodLsb 13)
  exact ⟨h1, h2 (by decide), h3 2 0 false [] (by decide)⟩

end SqrtTheorems

section RoundTrip

variable {F : Type} [Field F] [DecidableEq F]

/-- Affine normalization of a finite point yields Z = 1. -/
theorem to_affine_Z_eq_one (P : Point F) (hz : P.Z ≠ 0) : (P.to_affine).Z = 1 := by
  simp [Point.to_affine, if_neg hz]

/-- Affine normalization of a finite well-formed point satisfies the affine
curve equation y * y = x * x * x + b. -/
theorem to_affine_on_curve (b : F) (P : Point F) (hz : P.Z ≠ 0)
    (h : P.Y ^ 2 = P.X ^ 3 + b * P.Z ^ 6) :
    (P.to_affine).Y * (P.to_affine).Y =
      (P.to_affine).X * (P.to_affine).X * (P.to_affine).X + b := by
  simp only [Point.to_affine, if_neg hz]
  have h6 : P.Z ^ 6 ≠ 0 := pow_ne_zero 6 hz
  field_simp
  linear_combination P.Z ^ 6 * h

/-- Affine normalization returns a representative of the same logical point. -/
theorem equals_to_affine (P : Point F) (hz : P.Z ≠ 0) :
    (P.to_affine).equals P = true := by
  have hc : P.Z⁻¹ * P.Z = 1 := inv_mul_cancel₀ hz
  have e1 : (P.to_affine).X * (P.Z * P.Z) = P.X * ((P.to_affine).Z * (P.to_affine).Z) := by
    simp only [Point.to_affine, if_neg hz]
    linear_combination (P.X * (P.Z⁻¹ * P.Z + 1)) * hc
  have e2 : (P.to_affine).Y * (P.Z * (P.Z * P.Z)) =
      P.Y * ((P.to_affine).Z * ((P.to_affine).Z * (P.to_affine).Z)) := by
    simp only [Point.to_affine, if_neg hz]
    linear_combination
      (P.Y * (P.Z⁻¹ * P.Z * (P.Z⁻¹ * P.Z) + P.Z⁻¹ * P.Z + 1)) * hc
  have hZne : (P.to_affine).Z ≠ 0 := by
    rw [to_affine_Z_eq_one P hz]
    exact one_ne_zero
  simp only [Point.equals, if_neg hZne, if_neg hz]
  rw [if_neg (by push_neg; exact ⟨e1, e2⟩)]

/-- Over an odd prime modulus, a nonzero element and its negation have
different parity bits (spec section 6: the parity bit distinguishes y
from -y). -/
theorem zmodLsb_neg_ne (p : ℕ) [hp : Fact p.Prime] (hp2 : p ≠ 2) (y : ZMod p)
    (hy : -y ≠ y) : zmodLsb p (-y) ≠ zmodLsb p y := by
  haveI : NeZero p := ⟨hp.out.ne_zero⟩
  have hy0 : y ≠ 0 := by
    rintro rfl
    simp at hy
  have hval : (-y).val = p - y.val := by
    rw [ZMod.neg_val]
    simp [hy0]
  have hlt : y.val < p := ZMod.val_lt y
  have hne0 : y.val ≠ 0 := fun h => hy0 ((ZMod.val_eq_zero y).1 h)
  have hodd : p % 2 = 1 := Nat.odd_iff.1 (hp.out.odd_of_ne_two hp2)
  unfold zmodLsb
  rw [hval]
  simp only [ne_eq, decide_eq_decide]
  omega

/-- C2: writing a well-formed point with the compressed encoding and reading
it back yields a point with Z = 1 (or the zero point when the flag is set)
that is equal, as a logical point, to the original; the decoder reconstructs
y as sqrt(x^3 + b) and negates it when its parity disagrees with the stored
bit.  `sqrtF` is any square root satisfying the PrimeField sqrt contract of
spec section 4.1 (returns a root on every quadratic residue). -/
theorem compressed_round_trip (p : ℕ) [hp : Fact p.Prime] (hp2 : p ≠ 2)
    (b : ZMod p) (sqrtF : ZMod p → Except SqrtErr (ZMod p))
    (hs : ∀ a : ZMod p, (∃ y, y * y = a) → ∃ y, sqrtF a = .ok y ∧ y * y = a)
    (P : Point (ZMod p)) (hwf : P.is_well_formed b = true) :
    ∃ Q : Point (ZMod p),
      read_compressed b sqrtF (zmodLsb p) (write_compressed (zmodLsb p) P) =
        .ok (Q, []) ∧
      Q.equals P = true ∧ (P.Z = 0 → Q = Point.zeroPoint) ∧
      (P.Z ≠ 0 → Q.Z = 1) := by
  by_cases hz : P.Z = 0
  · refine ⟨Point.zeroPoint, ?_, ?_, fun _ => rfl, fun h => absurd hz h⟩
    · simp [write_compressed, read_compressed, Point.to_affine, hz]
    · simp [Point.equals, Point.zeroPoint, hz]
  · have hZ1 : (P.to_affine).Z = 1 := to_affine_Z_eq_one P hz
    have hcurve : P.Y ^ 2 = P.X ^ 3 + b * P.Z ^ 6 := (is_well_formed_iff_eq b P hz).1 hwf
    have hyy : (P.to_affine).Y * (P.to_affine).Y =
        (P.to_affine).X * (P.to_affine).X * (P.to_affine).X + b :=
      to_affine_on_curve b P hz hcurve
    obtain ⟨y', hok, hsq⟩ := hs _ ⟨(P.to_affine).Y, hyy⟩
    have hflag : (decide ((P.to_affine).Z = 0)) = false := by
      rw [hZ1]
      simp
    have htY : (if zmodLsb p y' ≠ zmodLsb p (P.to_affine).Y then -y' else y') =
        (P.to_affine).Y := by
      rcases mul_self_eq_mul_self_iff.1 (hsq.trans hyy.symm) with hcase | hcase
      · subst hcase
        simp
      · by_cases hopp : -(P.to_affine).Y = (P.to_affine).Y
        · rw [hcase, hopp]
          simp
        · rw [hcase, if_pos (by simpa using zmodLsb_neg_ne p hp2 _ hopp), neg_neg]
    refine ⟨P.to_affine, ?_, equals_to_affine P hz, fun h => absurd h hz,
      fun _ => hZ1⟩
    simp only [write_compressed, hflag, read_compressed, Bool.false_eq_true,
      if_neg (Bool.false_ne_true), hok]
    rw [htY]
    refine congrArg (fun Q => Except.ok (Q, ([] : List (Token (ZMod p))))) ?_
    exact (Point.ext rfl rfl hZ1 : P.to_affine = ⟨_, _, 1⟩).symm

/-- Witness for C2 over F_13 with b = 4: the on-curve point (0, 2, 1)
(2^2 = 0^3 + 4) survives the compressed round trip through the reference
square root `sqrtSearch`. -/
theorem compressed_round_trip_witness :
    ∃ Q : Point (ZMod 13),
      read_compressed 4 (sqrtSearch 13) (zmodLsb 13)
          (write_compressed (zmodLsb 13) ⟨0, 2, 1⟩) = .ok (Q, []) ∧
      Q.equals ⟨0, 2, 1⟩ = true ∧
      ((Point.mk (0 : ZMod 13) 2 1).Z = 0 → Q = Point.zeroPoint) ∧
      ((Point.mk (0 : ZMod 13) 2 1).Z ≠ 0 → Q.Z = 1) :=
  compressed_round_trip 13 (by decide) 4 (sqrtSearch 13) (by decide)
    ⟨0, 2, 1⟩ (by decide)

end RoundTrip


